import Mathlib

/-!
Verification of the `asynq` task processor (`processor.go`).

The development shallowly embeds the processor's pure logic (queue
selection, dedup, priority sorting, the retry/kill decision, panic
isolation in `perform`) as Lean functions, and its effectful parts
(the dispatch loop `exec`, the worker goroutine, `stop`, `terminate`)
as trace-producing functions and small-step transition relations whose
nondeterministic inputs (dequeue result, Go `select` resolution,
handler outcome, shuffle outcome) are explicit parameters.

Store operations (`rdb.Dequeue`, `Requeue`, `Done`, `Retry`, `Kill`,
`RestoreUnfinished`) live in `internal/rdb`, outside the provided
source; their effects on an abstract store are modelled from the
spec's store-interface table.
-/

namespace Asynq

/-- The persisted form of a task, mirroring `base.TaskMessage`:
the fields the processor observes. `Retry`/`Retried` are Go `int`s. -/
structure TaskMessage where
  ID : Nat
  Type' : String
  Payload : String
  Queue : String
  Retry : Int
  Retried : Int
deriving DecidableEq, Repr

/-- The handler-facing view of a message (`NewTask(msg.Type, msg.Payload)`). -/
structure Task where
  Type' : String
  Payload : String
deriving DecidableEq, Repr

/-- Outcome of running a handler body: normal return (success or an
error value), or a panic carrying a fault detail value. -/
inductive HandlerOutcome where
  | ok : HandlerOutcome
  | fail (e : String) : HandlerOutcome
  | panicked (v : Nat) : HandlerOutcome
deriving DecidableEq, Repr

/-- `perform` calls the handler; a normal return passes the value
through, and a panic is recovered and converted to the error
`fmt.Errorf("panic: %v", x)`.  `none` models a nil error. -/
def perform (h : Task → HandlerOutcome) (t : Task) : Option String :=
  match h t with
  | .ok => none
  | .fail e => some e
  | .panicked v => some ("panic: " ++ toString v)

/-- `sub` occurs as a contiguous substring of `s`. -/
def containsStr (sub s : String) : Prop :=
  List.IsInfix sub.data s.data

/-- Accumulator loop of `uniq`: append each unseen name, stopping as
soon as the result reaches length `l` (the `break` in the Go loop). -/
def uniqAux (l : Nat) : List String → List String → List String
  | [], res => res
  | s :: rest, res =>
    let res' := if s ∈ res then res else res ++ [s]
    if res'.length = l then res' else uniqAux l rest res'

/-- `uniq` dedupes `names` preserving first occurrence, truncated to at
most `l` distinct entries. -/
def uniq (names : List String) (l : Nat) : List String :=
  uniqAux l names []

/-- First-occurrence dedup without the length cut-off, in accumulator
form; used to state what `uniq` computes when the cut-off is large. -/
def dedupFirstAux : List String → List String → List String
  | [], res => res
  | s :: rest, res => dedupFirstAux rest (if s ∈ res then res else res ++ [s])

/-- First-occurrence dedup of a list of names. -/
def dedupFirst (names : List String) : List String :=
  dedupFirstAux names []

/-- Insert one queue-config entry into a list sorted by priority in
descending order. -/
def insertDesc (x : String × Nat) : List (String × Nat) → List (String × Nat)
  | [] => [x]
  | y :: ys => if y.2 ≤ x.2 then x :: y :: ys else y :: insertDesc x ys

/-- Sort queue-config entries by priority in descending order
(the effect of `sort.Sort(sort.Reverse(byPriority))`). -/
def sortPairsDesc : List (String × Nat) → List (String × Nat)
  | [] => []
  | x :: xs => insertDesc x (sortPairsDesc xs)

/-- `sortByPriority` returns the queue names sorted by priority level
in descending order. -/
def sortByPriority (qcfg : List (String × Nat)) : List String :=
  (sortPairsDesc qcfg).map Prod.fst

/-- The multiset built in weighted-random mode: each queue name
replicated `priority` times (map iteration order is the list order). -/
def replicated (qcfg : List (String × Nat)) : List String :=
  qcfg.flatMap (fun p => List.replicate p.2 p.1)

/-- `queues` of the processor.  `qcfg` is the `queueConfig` map as an
entry list, `orderedQueues` is `some _` exactly in strict mode, and
`shuffled` is the outcome of the uniform shuffle of the replicated
multiset (the random choice made explicit; theorems constrain it to a
permutation of `replicated qcfg`). -/
def queues (qcfg : List (String × Nat)) (orderedQueues : Option (List String))
    (shuffled : List String) : List String :=
  match qcfg with
  | [(qname, _)] => [qname]
  | _ =>
    match orderedQueues with
    | some oq => oq
    | none => uniq shuffled qcfg.length

/-- Observable events of the processor: the store calls it issues and
its internal signalling actions. -/
inductive Ev where
  | dequeue (qnames : List String)
  | sleepSecond
  | requeueEv (m : TaskMessage)
  | acquireTok
  | releaseTok
  | handlerInvoke (m : TaskMessage)
  | abandonWorker (m : TaskMessage)
  | doneEv (m : TaskMessage)
  | retryEv (m : TaskMessage) (errText : String)
  | killEv (m : TaskMessage) (errText : String)
  | restoreUnfinishedEv
  | closeAbort
  | sendDone
  | scheduleQuit (seconds : Nat)
deriving DecidableEq, Repr

/-- Result of `rdb.Dequeue`. -/
inductive DequeueRes where
  | ok (m : TaskMessage)
  | noTask
  | otherErr (e : String)
deriving DecidableEq, Repr

/-- Which branch the `select` on `abort` vs the semaphore send resolves
to in `exec`. -/
inductive SlotSel where
  | abortBranch
  | tokenBranch
deriving DecidableEq, Repr

/-- Go `select` semantics for that statement: the abort branch can be
taken only once `abort` is closed, and the token branch only when a
semaphore slot is free. -/
inductive SlotSelValid : Bool → Bool → SlotSel → Prop
  | abort (freeTok : Bool) : SlotSelValid true freeTok .abortBranch
  | token (abortClosed : Bool) : SlotSelValid abortClosed true .tokenBranch

/-- Which branch the worker goroutine's `select` on `quit` vs `resCh`
resolves to. -/
inductive WorkerRes where
  | quitFired
  | handlerReturned (res : Option String)
deriving DecidableEq, Repr

/-- Trace of one worker goroutine processing `m`: the handler is
started, then either `quit` abandons the worker or the handler result
decides Done / Retry / Kill (`Retried >= Retry` picks Kill); the
deferred semaphore release runs on every exit path. -/
def workerTrace (m : TaskMessage) (w : WorkerRes) : List Ev :=
  Ev.handlerInvoke m ::
    (match w with
     | .quitFired => [Ev.abandonWorker m]
     | .handlerReturned none => [Ev.doneEv m]
     | .handlerReturned (some e) =>
       if m.Retry ≤ m.Retried then [Ev.killEv m e] else [Ev.retryEv m e])
    ++ [Ev.releaseTok]

/-- Trace of one `exec` iteration.  `multiQueue` is
`len(p.queueConfig) > 1`; `dq`, `sel`, `w` are the nondeterministic
resolutions of Dequeue, the slot/abort `select`, and the worker. -/
def execTrace (qnames : List String) (multiQueue : Bool) (dq : DequeueRes)
    (sel : SlotSel) (w : WorkerRes) : List Ev :=
  Ev.dequeue qnames ::
    match dq with
    | .noTask => if multiQueue then [Ev.sleepSecond] else []
    | .otherErr _ => []
    | .ok m =>
      match sel with
      | .abortBranch => [Ev.requeueEv m]
      | .tokenBranch => Ev.acquireTok :: workerTrace m w

/-- Trace of `stop()`: on the first call the `sync.Once` body closes
`abort` and sends on `done`; later calls do nothing. -/
def stopTrace (onceFired : Bool) : List Ev :=
  if onceFired then [] else [Ev.closeAbort, Ev.sendDone]

/-- The hard-coded grace deadline of `terminate` (`8 * time.Second`). -/
def graceTimeoutSeconds : Nat := 8

/-- Trace of `terminate()`: `stop`, schedule `quit` after the grace
deadline, acquire all `cap(p.sema)` tokens, then restore. -/
def terminateTrace (onceFired : Bool) (n : Nat) : List Ev :=
  stopTrace onceFired ++ [Ev.scheduleQuit graceTimeoutSeconds]
    ++ List.replicate n Ev.acquireTok ++ [Ev.restoreUnfinishedEv]

/-- The external store: active queues, the in-progress holding area,
and the retry and dead buckets. -/
structure Store where
  queued : String → List TaskMessage
  inProgress : List TaskMessage
  retryBucket : List (TaskMessage × String)
  deadBucket : List (TaskMessage × String)

/-- Remove a message from a list (the store drops the in-progress
record of the message). -/
def removeMsg (m : TaskMessage) (l : List TaskMessage) : List TaskMessage :=
  l.filter (fun x => decide (x ≠ m))

/-- `rdb.Retry` increments the attempt counter. -/
def incrRetried (m : TaskMessage) : TaskMessage :=
  { m with Retried := m.Retried + 1 }

/-- Modelled from the spec: the effect of each store operation of
`internal/rdb` (not under the provided source) on the abstract store,
following the spec's store-interface table.  Requeue moves the message
from in-progress back to the head of its source queue; Done removes it;
Retry moves it (with `Retried` incremented) to the retry bucket with
the error text; Kill moves it to the dead bucket with the error text;
RestoreUnfinished moves all in-progress entries to the tails of their
source queues.  Non-store events leave the store unchanged. -/
def applyEv (st : Store) : Ev → Store
  | .requeueEv m =>
    { st with
      inProgress := removeMsg m st.inProgress
      queued := fun q => if q = m.Queue then m :: st.queued q else st.queued q }
  | .doneEv m => { st with inProgress := removeMsg m st.inProgress }
  | .retryEv m e =>
    { st with
      inProgress := removeMsg m st.inProgress
      retryBucket := (incrRetried m, e) :: st.retryBucket }
  | .killEv m e =>
    { st with
      inProgress := removeMsg m st.inProgress
      deadBucket := (m, e) :: st.deadBucket }
  | .restoreUnfinishedEv =>
    { st with
      inProgress := []
      queued := fun q => st.queued q ++ st.inProgress.filter (fun x => decide (x.Queue = q)) }
  | _ => st

/-- Apply a trace of events to the store, left to right. -/
def applyTrace (st : Store) (tr : List Ev) : Store :=
  tr.foldl applyEv st

/-- The processor-local flags that `stop` touches: whether the
`sync.Once` body has run, whether `abort` is closed, and how many
values have been sent on `done`. -/
structure ProcFlags where
  onceFired : Bool
  abortClosed : Bool
  doneSentCount : Nat
deriving DecidableEq, Repr

/-- State effect of one `stop()` call: the `sync.Once` body runs only
on the first call, closing `abort` and sending one value on `done`. -/
def stopFn (s : ProcFlags) : ProcFlags :=
  if s.onceFired then s
  else { onceFired := true, abortClosed := true, doneSentCount := s.doneSentCount + 1 }

/-- `stop()` called `k` times in sequence. -/
def stopN : Nat → ProcFlags → ProcFlags
  | 0, s => s
  | k + 1, s => stopN k (stopFn s)

/-- One step of the worker-slot discipline on the count of workers
holding a token: a worker goroutine is spawned only after acquiring a
token from the capacity-`n` semaphore, and a worker's exit releases
its token. -/
inductive PoolStep (n : Nat) : Nat → Nat → Prop
  | spawn (a : Nat) : a < n → PoolStep n a (a + 1)
  | finish (a : Nat) : PoolStep n (a + 1) a

/-- Worker counts reachable from an idle processor. -/
def PoolReachable (n : Nat) (a : Nat) : Prop :=
  Relation.ReflTransGen (PoolStep n) 0 a

/-- State of the stop/start rendezvous on the unbuffered `done`
channel: whether the dispatch-loop goroutine (the only receiver on
`done`, created by `start()`) is running, and the progress of a
`stop()` call. -/
structure StopSys where
  loopRunning : Bool
  onceFired : Bool
  abortClosed : Bool
  stopPendingSend : Bool
  stopReturned : Bool
deriving DecidableEq, Repr

/-- A freshly constructed processor before any call. -/
def initStopSys : StopSys :=
  { loopRunning := false, onceFired := false, abortClosed := false
    stopPendingSend := false, stopReturned := false }

/-- Steps available when `start()` is never called: `stop()` runs its
`sync.Once` body, closes `abort` and blocks sending on the unbuffered
`done`; the send can complete only by rendezvous with a running
dispatch loop.  No step sets `loopRunning` (that is `start()`'s job). -/
inductive NoStartStep : StopSys → StopSys → Prop
  | beginStop (s : StopSys) : s.onceFired = false →
    NoStartStep s { s with onceFired := true, abortClosed := true, stopPendingSend := true }
  | rendezvous (s : StopSys) : s.stopPendingSend = true → s.loopRunning = true →
    NoStartStep s { s with stopPendingSend := false, stopReturned := true }

/-! ## Helper lemmas -/

lemma stopFn_onceFired (s : ProcFlags) : (stopFn s).onceFired = true := by
  unfold stopFn
  by_cases h : s.onceFired <;> simp [h]

lemma stopFn_idem (s : ProcFlags) : stopFn (stopFn s) = stopFn s := by
  have h := stopFn_onceFired s
  unfold stopFn
  by_cases hs : s.onceFired <;> simp [hs]

lemma stopN_succ_eq (k : Nat) : ∀ s : ProcFlags, stopN (k + 1) s = stopFn s := by
  induction k with
  | zero => intro s; rfl
  | succ k ih =>
    intro s
    show stopN (k + 1) (stopFn s) = stopFn s
    rw [ih (stopFn s), stopFn_idem]

/-- Concrete fresh processor flags used by witnesses. -/
def flags0 : ProcFlags := { onceFired := false, abortClosed := false, doneSentCount := 0 }

/-- Concrete message used by witnesses. -/
def msg0 : TaskMessage :=
  { ID := 1, Type' := "email:send", Payload := "to=alice", Queue := "default",
    Retry := 0, Retried := 0 }

/-- Concrete store used by witnesses: `msg0` sits in in-progress. -/
def st0 : Store :=
  { queued := fun _ => [], inProgress := [msg0], retryBucket := [], deadBucket := [] }

/-! ## Claim theorems -/

/-- C5: `stop()` is idempotent: for every `N ≥ 1`, calling it `N`
times equals calling it once; the first call closes `abort` and sends
exactly one value on `done`, and any later call is a no-op. -/
theorem stop_idempotent (s : ProcFlags) (N : Nat) (hN : 1 ≤ N) :
    stopN N s = stopFn s
    ∧ stopFn (stopFn s) = stopFn s
    ∧ (s.onceFired = false →
        (stopFn s).abortClosed = true
        ∧ (stopFn s).doneSentCount = s.doneSentCount + 1)
    ∧ (s.onceFired = true → stopFn s = s) := by
  refine ⟨?_, stopFn_idem s, ?_, ?_⟩
  · obtain ⟨k, rfl⟩ : ∃ k, N = k + 1 := ⟨N - 1, by omega⟩
    exact stopN_succ_eq k s
  · intro h; simp [stopFn, h]
  · intro h; simp [stopFn, h]

/-- Witness for C5 at `N = 3` on a fresh processor. -/
theorem stop_idempotent_witness : stopN 3 flags0 = stopFn flags0 :=
  (stop_idempotent flags0 3 (by decide)).1

/-- C7: a handler panic with detail value `v` is recovered: `perform`
returns a non-nil error whose text contains `panic` and the detail
value, rather than propagating the fault. -/
theorem perform_panic_isolated (h : Task → HandlerOutcome) (t : Task) (v : Nat)
    (hp : h t = .panicked v) :
    ∃ s, perform h t = some s ∧ containsStr "panic" s ∧ containsStr (toString v) s := by
  refine ⟨"panic: " ++ toString v, by simp [perform, hp], ?_, ?_⟩
  · show List.IsInfix ("panic".data) (("panic: " ++ toString v).data)
    refine ⟨[], (": " ++ toString v).data, ?_⟩
    have hsplit : "panic: " = "panic" ++ ": " := by decide
    rw [hsplit]
    simp [String.data_append]
  · show List.IsInfix ((toString v).data) (("panic: " ++ toString v).data)
    exact ⟨"panic: ".data, [], by simp [String.data_append]⟩

/-- Witness for C7: a handler panicking with value `42`. -/
theorem perform_panic_isolated_witness :
    ∃ s, perform (fun _ => HandlerOutcome.panicked 42) { Type' := "t", Payload := "p" } = some s
      ∧ containsStr "panic" s ∧ containsStr (toString 42) s :=
  perform_panic_isolated (fun _ => HandlerOutcome.panicked 42)
    { Type' := "t", Payload := "p" } 42 rfl

/-- C2: the worker-slot discipline keeps the number of simultaneously
running workers at most the semaphore capacity `n`, and each worker's
trace releases its token exactly once on every exit path. -/
theorem bounded_concurrency (n a : Nat) (h : PoolReachable n a) :
    a ≤ n
    ∧ ∀ (m : TaskMessage) (w : WorkerRes),
        (workerTrace m w).count Ev.releaseTok = 1 := by
  constructor
  · induction h with
    | refl => exact Nat.zero_le n
    | tail _ hstep ih =>
      cases hstep with
      | spawn a ha => omega
      | finish a => omega
  · intro m w
    cases w with
    | quitFired => simp [workerTrace]
    | handlerReturned res =>
      cases res with
      | none => simp [workerTrace]
      | some e =>
        by_cases hc : m.Retry ≤ m.Retried <;> simp [workerTrace, hc]

/-- Witness for C2: one spawned worker under capacity 2 respects the
bound. -/
theorem bounded_concurrency_witness :
    1 ≤ 2
    ∧ ∀ (m : TaskMessage) (w : WorkerRes),
        (workerTrace m w).count Ev.releaseTok = 1 :=
  bounded_concurrency 2 1 (Relation.ReflTransGen.single (PoolStep.spawn 0 (by decide)))

/-- C8 (code behavior at the spec's claimed input): when `start()` has
never been called there is no receiver on the unbuffered `done`
channel, so in every state reachable from a fresh processor without a
`start` step, `stop()` has not returned — the send on `done` blocks
forever, so `stop()` before `start()` deadlocks instead of being a
permitted no-op. -/
theorem stop_before_start_blocks (s : StopSys)
    (h : Relation.ReflTransGen NoStartStep initStopSys s) :
    s.stopReturned = false ∧ s.loopRunning = false := by
  induction h with
  | refl => exact ⟨rfl, rfl⟩
  | tail _ hstep ih =>
    cases hstep with
    | beginStop ht => exact ⟨ih.1, ih.2⟩
    | rendezvous h1 h2 => exact absurd h2 (by simp [ih.2])

/-- Witness for C8: after `stop()` begins on a fresh processor (its
`sync.Once` body has run), the call still has not returned. -/
theorem stop_before_start_blocks_witness :
    ({ initStopSys with onceFired := true, abortClosed := true, stopPendingSend := true } : StopSys).stopReturned = false
    ∧ ({ initStopSys with onceFired := true, abortClosed := true, stopPendingSend := true } : StopSys).loopRunning = false :=
  stop_before_start_blocks _
    (Relation.ReflTransGen.single (NoStartStep.beginStop initStopSys rfl))

lemma not_mem_removeMsg (m : TaskMessage) (l : List TaskMessage) :
    m ∉ removeMsg m l := by
  simp [removeMsg]

lemma applyTrace_append (st : Store) (t1 t2 : List Ev) :
    applyTrace st (t1 ++ t2) = applyTrace (applyTrace st t1) t2 := by
  simp [applyTrace, List.foldl_append]

lemma applyEv_acquire (st : Store) : applyEv st Ev.acquireTok = st := rfl

lemma applyTrace_replicate_acquire (n : Nat) (st : Store) :
    applyTrace st (List.replicate n Ev.acquireTok) = st := by
  induction n with
  | zero => rfl
  | succ k ih =>
    rw [List.replicate_succ]
    show applyTrace (applyEv st Ev.acquireTok) (List.replicate k Ev.acquireTok) = st
    rw [applyEv_acquire]
    exact ih

/-- C1: on handler failure the worker calls Kill exactly when
`Retried >= Retry` and Retry otherwise; Kill moves the message to the
dead bucket with the error text and out of in-progress, Retry moves it
to the retry bucket; hence a message with `Retry = 0` that fails is
killed after exactly one handler invocation. -/
theorem retry_kill_decision (m : TaskMessage) (e : String) (qnames : List String)
    (multi : Bool) (st : Store) :
    (Ev.killEv m e ∈ execTrace qnames multi (.ok m) .tokenBranch (.handlerReturned (some e))
      ↔ m.Retry ≤ m.Retried)
    ∧ (Ev.retryEv m e ∈ execTrace qnames multi (.ok m) .tokenBranch (.handlerReturned (some e))
      ↔ m.Retried < m.Retry)
    ∧ (m.Retry ≤ m.Retried →
        (m, e) ∈ (applyTrace st
            (execTrace qnames multi (.ok m) .tokenBranch (.handlerReturned (some e)))).deadBucket
        ∧ m ∉ (applyTrace st
            (execTrace qnames multi (.ok m) .tokenBranch (.handlerReturned (some e)))).inProgress)
    ∧ (m.Retried < m.Retry →
        (incrRetried m, e) ∈ (applyTrace st
            (execTrace qnames multi (.ok m) .tokenBranch (.handlerReturned (some e)))).retryBucket
        ∧ m ∉ (applyTrace st
            (execTrace qnames multi (.ok m) .tokenBranch (.handlerReturned (some e)))).inProgress)
    ∧ (m.Retry = 0 → m.Retried = 0 →
        Ev.killEv m e ∈ execTrace qnames multi (.ok m) .tokenBranch (.handlerReturned (some e))
        ∧ (execTrace qnames multi (.ok m) .tokenBranch
            (.handlerReturned (some e))).count (Ev.handlerInvoke m) = 1) := by
  by_cases hc : m.Retry ≤ m.Retried
  · refine ⟨by simp [execTrace, workerTrace, hc], by simp [execTrace, workerTrace, hc]; try omega,
      fun _ => ?_, fun hlt => absurd hlt (by omega), fun h0 h0' => ?_⟩
    · constructor
      · simp [execTrace, workerTrace, hc, applyTrace, applyEv]
      · simp [execTrace, workerTrace, hc, applyTrace, applyEv, not_mem_removeMsg]
    · exact ⟨by simp [execTrace, workerTrace, hc],
        by simp [execTrace, workerTrace, hc, List.count_cons]⟩
  · refine ⟨by simp [execTrace, workerTrace, hc], by simp [execTrace, workerTrace, hc]; try omega,
      fun hle => absurd hle hc, fun _ => ?_, fun h0 h0' => absurd hc (by omega)⟩
    constructor
    · simp [execTrace, workerTrace, hc, applyTrace, applyEv]
    · simp [execTrace, workerTrace, hc, applyTrace, applyEv, not_mem_removeMsg]

/-- Witness for C1: `msg0` has `Retry = 0`, `Retried = 0`, so a failed
first attempt is killed and lands in the dead bucket. -/
theorem retry_kill_decision_witness :
    Ev.killEv msg0 "boom" ∈
      execTrace ["default"] false (.ok msg0) .tokenBranch (.handlerReturned (some "boom"))
    ∧ (msg0, "boom") ∈ (applyTrace st0
        (execTrace ["default"] false (.ok msg0) .tokenBranch
          (.handlerReturned (some "boom")))).deadBucket :=
  ⟨((retry_kill_decision msg0 "boom" ["default"] false st0).2.2.2.2 rfl rfl).1,
    ((retry_kill_decision msg0 "boom" ["default"] false st0).2.2.1 (by decide)).1⟩

/-- C3: `terminate()` performs, in order: `stop`, scheduling `quit`
after the fixed 8-second grace deadline, acquiring every one of the
`n` semaphore tokens, then RestoreUnfinished; afterwards the
in-progress holding area is empty and every formerly in-progress
message is back on its source queue. -/
theorem terminate_spec (n : Nat) (st : Store) (b : Bool) :
    terminateTrace false n =
      [Ev.closeAbort, Ev.sendDone, Ev.scheduleQuit 8]
        ++ List.replicate n Ev.acquireTok ++ [Ev.restoreUnfinishedEv]
    ∧ graceTimeoutSeconds = 8
    ∧ (applyTrace st (terminateTrace b n)).inProgress = []
    ∧ ∀ m ∈ st.inProgress, m ∈ (applyTrace st (terminateTrace b n)).queued m.Queue := by
  have happly : applyTrace st (terminateTrace b n) = applyEv st Ev.restoreUnfinishedEv := by
    have hstop : applyTrace st (stopTrace b) = st := by
      cases b <;> simp [stopTrace, applyTrace, applyEv]
    rw [terminateTrace, applyTrace_append, applyTrace_append, applyTrace_append, hstop]
    have h2 : applyTrace st [Ev.scheduleQuit graceTimeoutSeconds] = st := rfl
    rw [h2, applyTrace_replicate_acquire]
    rfl
  refine ⟨by simp [terminateTrace, stopTrace, graceTimeoutSeconds], rfl, ?_, ?_⟩
  · rw [happly]; rfl
  · intro m hm
    rw [happly]
    show m ∈ st.queued m.Queue ++ st.inProgress.filter (fun x => decide (x.Queue = m.Queue))
    exact List.mem_append_right _ (List.mem_filter.mpr ⟨hm, by simp⟩)

/-- Witness for C3 at capacity 2 with `msg0` in progress. -/
theorem terminate_spec_witness :
    (applyTrace st0 (terminateTrace false 2)).inProgress = []
    ∧ msg0 ∈ (applyTrace st0 (terminateTrace false 2)).queued msg0.Queue :=
  ⟨(terminate_spec 2 st0 false).2.2.1,
    (terminate_spec 2 st0 false).2.2.2 msg0 (by simp [st0])⟩

/-- C6: if `abort` has been raised while the dispatch loop waits for a
worker slot (no token free) after a successful Dequeue, the `select`
can only take the abort branch: the message is passed to Requeue,
moving it from in-progress back to the head of its source queue, and
no handler is invoked; moreover the abort branch is the only producer
of a Requeue call — no worker trace and no `terminate` trace contains
one. -/
theorem abort_requeue_only (qnames : List String) (multi : Bool) (m : TaskMessage)
    (sel : SlotSel) (w : WorkerRes) (st : Store) :
    (SlotSelValid true false sel →
      sel = SlotSel.abortBranch
      ∧ execTrace qnames multi (.ok m) sel w = [Ev.dequeue qnames, Ev.requeueEv m]
      ∧ (∀ m', Ev.handlerInvoke m' ∉ execTrace qnames multi (.ok m) sel w)
      ∧ (applyTrace st (execTrace qnames multi (.ok m) sel w)).queued m.Queue
          = m :: st.queued m.Queue
      ∧ m ∉ (applyTrace st (execTrace qnames multi (.ok m) sel w)).inProgress)
    ∧ (∀ (dq : DequeueRes) (m' : TaskMessage),
        Ev.requeueEv m' ∈ execTrace qnames multi dq sel w →
          dq = .ok m' ∧ sel = .abortBranch
          ∧ ∀ m'', Ev.handlerInvoke m'' ∉ execTrace qnames multi dq sel w)
    ∧ (∀ m', Ev.requeueEv m' ∉ workerTrace m w)
    ∧ (∀ (c : Bool) (k : Nat) (m' : TaskMessage), Ev.requeueEv m' ∉ terminateTrace c k) := by
  have hw : ∀ (mm : TaskMessage) (m' : TaskMessage), Ev.requeueEv m' ∉ workerTrace mm w := by
    intro mm m'
    cases w with
    | quitFired => simp [workerTrace]
    | handlerReturned res =>
      cases res with
      | none => simp [workerTrace]
      | some e => by_cases hc : mm.Retry ≤ mm.Retried <;> simp [workerTrace, hc]
  have hhandler : ∀ (mm : TaskMessage) (m'' : TaskMessage),
      Ev.handlerInvoke m'' ∉ execTrace qnames multi (.ok mm) SlotSel.abortBranch w := by
    intro mm m''
    simp [execTrace]
  refine ⟨?_, ?_, hw m, ?_⟩
  · intro hv
    have hsel : sel = SlotSel.abortBranch := by
      cases hv with
      | abort => rfl
    subst hsel
    refine ⟨rfl, rfl, hhandler m, ?_, ?_⟩
    · show (applyEv (applyEv st (Ev.dequeue qnames)) (Ev.requeueEv m)).queued m.Queue
        = m :: st.queued m.Queue
      simp [applyEv]
    · show m ∉ (applyEv (applyEv st (Ev.dequeue qnames)) (Ev.requeueEv m)).inProgress
      simp [applyEv, not_mem_removeMsg]
  · intro dq m' hmem
    cases dq with
    | noTask =>
      exfalso
      cases multi <;> simp [execTrace] at hmem
    | otherErr e => exfalso; simp [execTrace] at hmem
    | ok mm =>
      cases sel with
      | abortBranch =>
        have heq : m' = mm := by simpa [execTrace] using hmem
        exact ⟨by rw [heq], rfl, hhandler mm⟩
      | tokenBranch =>
        exfalso
        have := hw mm m'
        simp [execTrace] at hmem
        exact this hmem
  · intro c k m'
    simp [terminateTrace, stopTrace, List.mem_replicate]

/-- Witness for C6: abort raised, slot unavailable — the dequeued
`msg0` is requeued and no handler runs. -/
theorem abort_requeue_only_witness :
    execTrace ["default"] true (.ok msg0) .abortBranch (.handlerReturned none)
      = [Ev.dequeue ["default"], Ev.requeueEv msg0] :=
  ((abort_requeue_only ["default"] true msg0 .abortBranch (.handlerReturned none) st0).1
    (SlotSelValid.abort false)).2.1

lemma uniqAux_cons (l : Nat) (s : String) (rest res : List String) :
    uniqAux l (s :: rest) res =
      if (if s ∈ res then res else res ++ [s]).length = l
      then (if s ∈ res then res else res ++ [s])
      else uniqAux l rest (if s ∈ res then res else res ++ [s]) := rfl

lemma dedupFirstAux_cons (s : String) (rest res : List String) :
    dedupFirstAux (s :: rest) res =
      dedupFirstAux rest (if s ∈ res then res else res ++ [s]) := rfl

lemma mem_dedupFirstAux (x : String) :
    ∀ (rest res : List String), x ∈ dedupFirstAux rest res ↔ x ∈ res ∨ x ∈ rest := by
  intro rest
  induction rest with
  | nil => intro res; simp [dedupFirstAux]
  | cons s rest ih =>
    intro res
    rw [dedupFirstAux_cons]
    by_cases hs : s ∈ res
    · rw [if_pos hs, ih]
      simp only [List.mem_cons]
      constructor
      · tauto
      · rintro (h | rfl | h) <;> tauto
    · rw [if_neg hs, ih]
      simp only [List.mem_append, List.mem_singleton, List.mem_cons]
      tauto

lemma nodup_dedupFirstAux :
    ∀ (rest res : List String), res.Nodup → (dedupFirstAux rest res).Nodup := by
  intro rest
  induction rest with
  | nil => intro res h; exact h
  | cons s rest ih =>
    intro res h
    rw [dedupFirstAux_cons]
    by_cases hs : s ∈ res
    · rw [if_pos hs]; exact ih res h
    · rw [if_neg hs]
      exact ih (res ++ [s]) (by simp [List.nodup_append, h, hs])

lemma dedupFirstAux_of_subset :
    ∀ (rest res : List String), (∀ x ∈ rest, x ∈ res) → dedupFirstAux rest res = res := by
  intro rest
  induction rest with
  | nil => intro res _; rfl
  | cons s rest ih =>
    intro res hsub
    rw [dedupFirstAux_cons, if_pos (hsub s (List.mem_cons_self s rest))]
    exact ih res (fun x hx => hsub x (List.mem_cons_of_mem s hx))

lemma uniqAux_eq_dedupFirstAux (l : Nat) :
    ∀ (rest res : List String), res.Nodup → (res ++ rest).toFinset.card ≤ l →
      uniqAux l rest res = dedupFirstAux rest res := by
  intro rest
  induction rest with
  | nil => intro res _ _; rfl
  | cons s rest ih =>
    intro res hres hcard
    rw [uniqAux_cons, dedupFirstAux_cons]
    have hres' : (if s ∈ res then res else res ++ [s]).Nodup := by
      by_cases hs : s ∈ res
      · rw [if_pos hs]; exact hres
      · rw [if_neg hs]; simp [List.nodup_append, hres, hs]
    have hfin : ((if s ∈ res then res else res ++ [s]) ++ rest).toFinset
        = (res ++ s :: rest).toFinset := by
      ext x
      by_cases hs : s ∈ res
      · rw [if_pos hs]
        simp only [List.mem_toFinset, List.mem_append, List.mem_cons]
        constructor
        · tauto
        · rintro (h | rfl | h) <;> tauto
      · rw [if_neg hs]
        simp only [List.mem_toFinset, List.mem_append, List.mem_singleton, List.mem_cons]
        tauto
    have hcard' : ((if s ∈ res then res else res ++ [s]) ++ rest).toFinset.card ≤ l := by
      rw [hfin]; exact hcard
    by_cases hl : (if s ∈ res then res else res ++ [s]).length = l
    · rw [if_pos hl]
      have h1 : (if s ∈ res then res else res ++ [s]).toFinset.card = l := by
        rw [List.toFinset_card_of_nodup hres', hl]
      have h2 : (if s ∈ res then res else res ++ [s]).toFinset
          ⊆ ((if s ∈ res then res else res ++ [s]) ++ rest).toFinset := by
        intro x hx
        simp only [List.mem_toFinset, List.mem_append] at hx ⊢
        exact Or.inl hx
      have h3 := Finset.eq_of_subset_of_card_le h2 (by rw [h1]; exact hcard')
      have hsub : ∀ x ∈ rest, x ∈ (if s ∈ res then res else res ++ [s]) := by
        intro x hx
        have hx' : x ∈ ((if s ∈ res then res else res ++ [s]) ++ rest).toFinset := by
          simp only [List.mem_toFinset, List.mem_append]
          exact Or.inr hx
        rw [← h3] at hx'
        simpa using hx'
      exact (dedupFirstAux_of_subset rest _ hsub).symm
    · rw [if_neg hl]
      exact ih _ hres' hcard'

lemma uniq_eq_dedupFirst (names : List String) (l : Nat)
    (h : names.toFinset.card ≤ l) : uniq names l = dedupFirst names :=
  uniqAux_eq_dedupFirstAux l names [] List.nodup_nil (by simpa using h)

lemma mem_dedupFirst (x : String) (names : List String) :
    x ∈ dedupFirst names ↔ x ∈ names := by
  rw [dedupFirst, mem_dedupFirstAux]
  simp

lemma nodup_dedupFirst (names : List String) : (dedupFirst names).Nodup :=
  nodup_dedupFirstAux names [] List.nodup_nil

lemma dedupFirst_toFinset (names : List String) :
    (dedupFirst names).toFinset = names.toFinset := by
  ext x
  simp [List.mem_toFinset, mem_dedupFirst]

lemma dedupFirst_length (names : List String) :
    (dedupFirst names).length = names.toFinset.card := by
  rw [← dedupFirst_toFinset, List.toFinset_card_of_nodup (nodup_dedupFirst names)]

lemma perm_toFinset {l l' : List String} (h : l.Perm l') : l.toFinset = l'.toFinset := by
  ext x
  simp [List.mem_toFinset, h.mem_iff]

lemma mem_replicated {qcfg : List (String × Nat)} {q : String} :
    q ∈ replicated qcfg ↔ ∃ p ∈ qcfg, 0 < p.2 ∧ p.1 = q := by
  simp only [replicated, List.mem_flatMap, List.mem_replicate]
  constructor
  · rintro ⟨p, hp, hne, rfl⟩
    exact ⟨p, hp, Nat.pos_of_ne_zero hne, rfl⟩
  · rintro ⟨p, hp, hpos, rfl⟩
    exact ⟨p, hp, Nat.pos_iff_ne_zero.mp hpos, rfl⟩

lemma queues_weighted (qcfg : List (String × Nat)) (shuffled : List String)
    (hlen : 1 < qcfg.length) :
    queues qcfg none shuffled = uniq shuffled qcfg.length := by
  rcases qcfg with _ | ⟨⟨an, ap⟩, _ | ⟨⟨bn, bp⟩, rest⟩⟩
  · simp at hlen
  · simp at hlen
  · rfl

lemma queues_strict (qcfg : List (String × Nat)) (oq : List String)
    (shuffled : List String) (hlen : 1 < qcfg.length) :
    queues qcfg (some oq) shuffled = oq := by
  rcases qcfg with _ | ⟨⟨an, ap⟩, _ | ⟨⟨bn, bp⟩, rest⟩⟩
  · simp at hlen
  · simp at hlen
  · rfl

lemma nodup_keys_snd_eq {l : List (String × Nat)} (h : (l.map Prod.fst).Nodup)
    {a : String} {b c : Nat} (hb : (a, b) ∈ l) (hc : (a, c) ∈ l) : b = c := by
  induction l with
  | nil => simp at hb
  | cons x xs ih =>
    rw [List.map_cons, List.nodup_cons] at h
    rcases List.mem_cons.mp hb with hbx | hb'
    · rcases List.mem_cons.mp hc with hcx | hc'
      · rw [← hbx] at hcx
        exact (Prod.mk.injEq _ _ _ _ |>.mp hcx.symm).2
      · exfalso
        apply h.1
        rw [← hbx]
        exact List.mem_map.mpr ⟨(a, c), hc', rfl⟩
    · rcases List.mem_cons.mp hc with hcx | hc'
      · exfalso
        apply h.1
        rw [← hcx]
        exact List.mem_map.mpr ⟨(a, b), hb', rfl⟩
      · exact ih h.2 hb' hc'

lemma length_filter_lt {l : List (String × Nat)} {p : String × Nat → Bool}
    {x : String × Nat} (hx : x ∈ l) (hp : p x = false) :
    (l.filter p).length < l.length := by
  induction l with
  | nil => simp at hx
  | cons y ys ih =>
    rcases List.mem_cons.mp hx with rfl | hx'
    · rw [List.filter_cons, if_neg (by simp [hp])]
      have := List.length_filter_le p ys
      simp only [List.length_cons]
      omega
    · rw [List.filter_cons]
      have h1 := ih hx'
      by_cases hy : p y <;> simp [hy, List.length_cons] <;> omega

/-- C4: in weighted-random mode (strict off, more than one queue, all
weights positive), for every shuffle outcome the selector returns the
first-occurrence dedup of the shuffled multiset: each distinct
configured queue name appears exactly once, the result's names are
exactly the configured names, and its length is the number of distinct
queues. -/
theorem weighted_random_queues (qcfg : List (String × Nat)) (shuffled : List String)
    (hlen : 1 < qcfg.length) (hkeys : (qcfg.map Prod.fst).Nodup)
    (hpos : ∀ p ∈ qcfg, 0 < p.2) (hperm : shuffled.Perm (replicated qcfg)) :
    queues qcfg none shuffled = dedupFirst shuffled
    ∧ (queues qcfg none shuffled).Nodup
    ∧ (∀ q ∈ qcfg.map Prod.fst, (queues qcfg none shuffled).count q = 1)
    ∧ (∀ q ∈ queues qcfg none shuffled, q ∈ qcfg.map Prod.fst)
    ∧ (queues qcfg none shuffled).length = qcfg.length := by
  have hsetrep : (replicated qcfg).toFinset = (qcfg.map Prod.fst).toFinset := by
    ext q
    simp only [List.mem_toFinset, mem_replicated, List.mem_map]
    constructor
    · rintro ⟨p, hp, _, rfl⟩
      exact ⟨p, hp, rfl⟩
    · rintro ⟨p, hp, rfl⟩
      exact ⟨p, hp, hpos p hp, rfl⟩
  have hset : shuffled.toFinset = (qcfg.map Prod.fst).toFinset :=
    (perm_toFinset hperm).trans hsetrep
  have hcard : shuffled.toFinset.card = qcfg.length := by
    rw [hset, List.toFinset_card_of_nodup hkeys, List.length_map]
  have hq : queues qcfg none shuffled = dedupFirst shuffled := by
    rw [queues_weighted qcfg shuffled hlen]
    exact uniq_eq_dedupFirst shuffled qcfg.length (le_of_eq hcard)
  have hmemkeys : ∀ q, q ∈ shuffled ↔ q ∈ qcfg.map Prod.fst := by
    intro q
    rw [← List.mem_toFinset, hset, List.mem_toFinset]
  refine ⟨hq, ?_, ?_, ?_, ?_⟩
  · rw [hq]; exact nodup_dedupFirst shuffled
  · intro q hqk
    rw [hq]
    exact List.count_eq_one_of_mem (nodup_dedupFirst shuffled)
      ((mem_dedupFirst q shuffled).mpr ((hmemkeys q).mpr hqk))
  · intro q hqm
    rw [hq] at hqm
    exact (hmemkeys q).mp ((mem_dedupFirst q shuffled).mp hqm)
  · rw [hq, dedupFirst_length, hcard]

/-- Witness for C4: config `{A:3, B:1}` with shuffle outcome
`[B, A, A, A]`. -/
theorem weighted_random_queues_witness :
    queues [("A", 3), ("B", 1)] none ["B", "A", "A", "A"]
      = dedupFirst ["B", "A", "A", "A"]
    ∧ (queues [("A", 3), ("B", 1)] none ["B", "A", "A", "A"]).length
      = ([("A", 3), ("B", 1)] : List (String × Nat)).length :=
  ⟨(weighted_random_queues [("A", 3), ("B", 1)] ["B", "A", "A", "A"] (by decide)
      (by decide) (by decide) (by decide)).1,
    (weighted_random_queues [("A", 3), ("B", 1)] ["B", "A", "A", "A"] (by decide)
      (by decide) (by decide) (by decide)).2.2.2.2⟩

/-- C10: in weighted-random mode a queue with weight 0 contributes no
copies to the replicated multiset, so it never appears in the selector
output; the output length is the number of positive-weight queues,
strictly less than the number of configured queues. -/
theorem zero_weight_queue_skipped (qcfg : List (String × Nat)) (shuffled : List String)
    (q0 : String) (hlen : 1 < qcfg.length) (hkeys : (qcfg.map Prod.fst).Nodup)
    (hzero : (q0, 0) ∈ qcfg) (hperm : shuffled.Perm (replicated qcfg)) :
    q0 ∉ queues qcfg none shuffled
    ∧ (queues qcfg none shuffled).length
        = (qcfg.filter (fun p => decide (0 < p.2))).length
    ∧ (qcfg.filter (fun p => decide (0 < p.2))).length < qcfg.length := by
  have hsetpos : (replicated qcfg).toFinset
      = ((qcfg.filter (fun p => decide (0 < p.2))).map Prod.fst).toFinset := by
    ext q
    simp only [List.mem_toFinset, mem_replicated, List.mem_map, List.mem_filter]
    constructor
    · rintro ⟨p, hp, hpos, rfl⟩
      exact ⟨p, ⟨hp, by simpa using hpos⟩, rfl⟩
    · rintro ⟨p, ⟨hp, hpos⟩, rfl⟩
      exact ⟨p, hp, by simpa using hpos, rfl⟩
  have hnodpos : ((qcfg.filter (fun p => decide (0 < p.2))).map Prod.fst).Nodup :=
    ((List.filter_sublist qcfg).map Prod.fst).nodup hkeys
  have hcardpos : (replicated qcfg).toFinset.card
      = (qcfg.filter (fun p => decide (0 < p.2))).length := by
    rw [hsetpos, List.toFinset_card_of_nodup hnodpos, List.length_map]
  have hlt : (qcfg.filter (fun p => decide (0 < p.2))).length < qcfg.length :=
    length_filter_lt hzero (by simp)
  have hcard : shuffled.toFinset.card ≤ qcfg.length := by
    rw [perm_toFinset hperm, hcardpos]
    omega
  have hq : queues qcfg none shuffled = dedupFirst shuffled := by
    rw [queues_weighted qcfg shuffled hlen]
    exact uniq_eq_dedupFirst shuffled qcfg.length hcard
  refine ⟨?_, ?_, hlt⟩
  · rw [hq]
    intro hmem
    have hq0 : q0 ∈ replicated qcfg :=
      hperm.mem_iff.mp ((mem_dedupFirst q0 shuffled).mp hmem)
    obtain ⟨p, hp, hpos, hfst⟩ := mem_replicated.mp hq0
    obtain ⟨pn, pw⟩ := p
    have : pw = 0 := nodup_keys_snd_eq hkeys (hfst ▸ hp) hzero
    omega
  · rw [hq, dedupFirst_length, perm_toFinset hperm, hcardpos]

/-- Witness for C10: config `{A:2, B:0, C:1}` with shuffle outcome
`[C, A, A]` — queue `B` never appears and the result has 2 entries. -/
theorem zero_weight_queue_skipped_witness :
    "B" ∉ queues [("A", 2), ("B", 0), ("C", 1)] none ["C", "A", "A"]
    ∧ (queues [("A", 2), ("B", 0), ("C", 1)] none ["C", "A", "A"]).length
      = (([("A", 2), ("B", 0), ("C", 1)] : List (String × Nat)).filter
          (fun p => decide (0 < p.2))).length :=
  ⟨(zero_weight_queue_skipped [("A", 2), ("B", 0), ("C", 1)] ["C", "A", "A"] "B"
      (by decide) (by decide) (by decide) (by decide)).1,
    (zero_weight_queue_skipped [("A", 2), ("B", 0), ("C", 1)] ["C", "A", "A"] "B"
      (by decide) (by decide) (by decide) (by decide)).2.1⟩

lemma insertDesc_perm (x : String × Nat) (l : List (String × Nat)) :
    (insertDesc x l).Perm (x :: l) := by
  induction l with
  | nil => exact List.Perm.refl _
  | cons y ys ih =>
    rw [insertDesc]
    by_cases hy : y.2 ≤ x.2
    · rw [if_pos hy]
    · rw [if_neg hy]
      exact (ih.cons y).trans (List.Perm.swap x y ys)

lemma sortPairsDesc_perm (l : List (String × Nat)) : (sortPairsDesc l).Perm l := by
  induction l with
  | nil => exact List.Perm.refl _
  | cons x xs ih =>
    rw [sortPairsDesc]
    exact (insertDesc_perm x (sortPairsDesc xs)).trans (ih.cons x)

lemma insertDesc_sorted (x : String × Nat) (l : List (String × Nat))
    (h : l.Pairwise (fun a b => b.2 ≤ a.2)) :
    (insertDesc x l).Pairwise (fun a b => b.2 ≤ a.2) := by
  induction l with
  | nil => simp [insertDesc]
  | cons y ys ih =>
    rw [List.pairwise_cons] at h
    rw [insertDesc]
    by_cases hy : y.2 ≤ x.2
    · rw [if_pos hy]
      rw [List.pairwise_cons]
      refine ⟨?_, List.pairwise_cons.mpr h⟩
      intro b hb
      rcases List.mem_cons.mp hb with rfl | hb'
      · exact hy
      · exact le_trans (h.1 b hb') hy
    · rw [if_neg hy]
      rw [List.pairwise_cons]
      refine ⟨?_, ih h.2⟩
      intro b hb
      have hb' : b ∈ x :: ys := (insertDesc_perm x ys).mem_iff.mp hb
      rcases List.mem_cons.mp hb' with rfl | hb''
      · omega
      · exact h.1 b hb''

lemma sortPairsDesc_sorted (l : List (String × Nat)) :
    (sortPairsDesc l).Pairwise (fun a b => b.2 ≤ a.2) := by
  induction l with
  | nil => simp [sortPairsDesc]
  | cons x xs ih =>
    rw [sortPairsDesc]
    exact insertDesc_sorted x (sortPairsDesc xs) ih

lemma perm_sorted_desc_nodup_eq :
    ∀ (l l' : List (String × Nat)), l.Perm l' →
      l.Pairwise (fun a b => b.2 ≤ a.2) → l'.Pairwise (fun a b => b.2 ≤ a.2) →
      (l.map Prod.snd).Nodup → l = l' := by
  intro l
  induction l with
  | nil =>
    intro l' hp _ _ _
    exact (hp.symm.eq_nil).symm
  | cons x xs ih =>
    intro l' hp hsl hsl' hnd
    cases l' with
    | nil => exact absurd hp.eq_nil (by simp)
    | cons y ys =>
      have hxy : x = y := by
        by_contra hne
        have hxl' : x ∈ y :: ys := hp.mem_iff.mp (List.mem_cons_self x xs)
        have hyl : y ∈ x :: xs := hp.mem_iff.mpr (List.mem_cons_self y ys)
        have hx_in_ys : x ∈ ys := by
          rcases List.mem_cons.mp hxl' with h | h
          · exact absurd h hne
          · exact h
        have hy_in_xs : y ∈ xs := by
          rcases List.mem_cons.mp hyl with h | h
          · exact absurd h.symm hne
          · exact h
        have h1 : x.2 ≤ y.2 := (List.pairwise_cons.mp hsl').1 x hx_in_ys
        have h2 : y.2 ≤ x.2 := (List.pairwise_cons.mp hsl).1 y hy_in_xs
        have heq2 : x.2 = y.2 := le_antisymm h1 h2
        have hdup : x.2 ∈ xs.map Prod.snd :=
          List.mem_map.mpr ⟨y, hy_in_xs, heq2.symm⟩
        rw [List.map_cons, List.nodup_cons] at hnd
        exact hnd.1 hdup
      subst hxy
      have hnd' : (x :: xs).map Prod.snd = x.2 :: xs.map Prod.snd := rfl
      rw [hnd', List.nodup_cons] at hnd
      have := ih ys hp.cons_inv (List.pairwise_cons.mp hsl).2
        (List.pairwise_cons.mp hsl').2 hnd.2
      rw [this]

/-- C9: in strict-priority mode the selector always returns the
pre-computed `orderedQueues`, which is the config entries sorted by
priority descending (a sorted permutation of the config); for the
config `{A:3, B:2, C:1}` — in whatever order the map iteration yields
its entries — the result is always exactly `[A, B, C]`. -/
theorem strict_priority_queues (qcfg : List (String × Nat)) (shuffled : List String)
    (hlen : 1 < qcfg.length) :
    queues qcfg (some (sortByPriority qcfg)) shuffled = sortByPriority qcfg
    ∧ (sortPairsDesc qcfg).Pairwise (fun a b => b.2 ≤ a.2)
    ∧ (sortPairsDesc qcfg).Perm qcfg
    ∧ ∀ l : List (String × Nat), l.Perm [("A", 3), ("B", 2), ("C", 1)] →
        sortByPriority l = ["A", "B", "C"] := by
  refine ⟨queues_strict qcfg (sortByPriority qcfg) shuffled hlen,
    sortPairsDesc_sorted qcfg, sortPairsDesc_perm qcfg, ?_⟩
  intro l hperm
  have h1 : (sortPairsDesc l).Perm [("A", 3), ("B", 2), ("C", 1)] :=
    (sortPairsDesc_perm l).trans hperm
  have hnd : ((sortPairsDesc l).map Prod.snd).Nodup :=
    (h1.map Prod.snd).nodup_iff.mpr (by decide)
  have h2 : sortPairsDesc l = [("A", 3), ("B", 2), ("C", 1)] :=
    perm_sorted_desc_nodup_eq _ _ h1 (sortPairsDesc_sorted l) (by decide) hnd
  rw [sortByPriority, h2]
  rfl

/-- Witness for C9: the config in iteration order `[B, C, A]` still
sorts to `[A, B, C]`, and the selector returns the pre-computed list. -/
theorem strict_priority_queues_witness :
    queues [("A", 3), ("B", 2), ("C", 1)]
        (some (sortByPriority [("A", 3), ("B", 2), ("C", 1)])) []
      = sortByPriority [("A", 3), ("B", 2), ("C", 1)]
    ∧ sortByPriority [("B", 2), ("C", 1), ("A", 3)] = ["A", "B", "C"] :=
  ⟨(strict_priority_queues [("A", 3), ("B", 2), ("C", 1)] [] (by decide)).1,
    (strict_priority_queues [("A", 3), ("B", 2), ("C", 1)] [] (by decide)).2.2.2
      [("B", 2), ("C", 1), ("A", 3)] (by decide)⟩

end Asynq
